import Mathlib

/-!
Verification of the SteamCMD repository's KF2 configuration engine and
process supervision loop (src/apps/kf2.py, src/presets/tptiap_kf2.py).

The Python code is shallowly embedded: an .ini section table (a Python
dict from header line to list of body lines) becomes an association list
of String to List String with in-place-overwriting assignment; fallible
Python code (int conversion, list indexing, dict lookup that can raise)
returns Option; file IO is abstracted to the file's content string.
-/

namespace SteamCMD

/-- ASCII decimal digit test, as matched by a digit in the source's
regular expressions and accepted by int() on the inputs in scope. -/
def isDig (c : Char) : Bool :=
  48 ≤ c.toNat && c.toNat ≤ 57

/-- Value of a decimal digit character. -/
def dval (c : Char) : Nat :=
  c.toNat - 48

/-- Decimal digit character for a value below ten (values ten and above
collapse to the digit nine; never used that way). -/
def digitChar : Nat → Char
  | 0 => '0'
  | 1 => '1'
  | 2 => '2'
  | 3 => '3'
  | 4 => '4'
  | 5 => '5'
  | 6 => '6'
  | 7 => '7'
  | 8 => '8'
  | _ => '9'

/-- Fuelled little-endian-to-big-endian decimal printer: digits of n
followed by acc.  Fuel at least n is always enough since n is divided
by ten at every step. -/
def ntoaGo : Nat → Nat → List Char → List Char
  | 0, _, acc => acc
  | _ + 1, 0, acc => acc
  | n + 1, fuel + 1, acc =>
    ntoaGo ((n + 1) / 10) fuel (digitChar ((n + 1) % 10) :: acc)

/-- Decimal representation of a natural number, as produced by Python's
percent-s formatting of a non-negative int. -/
def ntoa (n : Nat) : List Char :=
  match n with
  | 0 => ['0']
  | n + 1 => ntoaGo (n + 1) (n + 1) []

/-- Decimal digits of an integer, with a leading minus sign when
negative: the characters of Python's percent-s formatting of an int. -/
def intChars (i : Int) : List Char :=
  if i < 0 then '-' :: ntoa i.natAbs else ntoa i.toNat

/-- String form of an integer, Python's str(int). -/
def intStr (i : Int) : String :=
  String.mk (intChars i)

/-- Horner evaluation of a digit string on top of an accumulator. -/
def valAux (l : List Char) (a : Nat) : Nat :=
  l.foldl (fun a c => 10 * a + dval c) a

/-- Parse a nonempty all-digit character list to a natural number;
none otherwise. -/
def digitsToNat (l : List Char) : Option Nat :=
  if l ≠ [] ∧ l.all isDig then some (valAux l 0) else none

/-- Whitespace characters stripped by Python's int() before parsing. -/
def isPySpace (c : Char) : Bool :=
  c = ' ' || c = '\t' || c = '\n' || c = '\r' || c = '\x0b' || c = '\x0c'

/-- Strip leading and trailing whitespace from a character list. -/
def stripSpaces (l : List Char) : List Char :=
  ((l.dropWhile isPySpace).reverse.dropWhile isPySpace).reverse

/-- Python's int(str) on a stripped character list: an optional sign
followed by a nonempty run of decimal digits; none models ValueError.
Underscore separators and non-ASCII digits are outside the inputs this
development exercises and are rejected here. -/
def pyIntCore : List Char → Option Int
  | [] => none
  | c :: ds =>
    if c = '-' then (digitsToNat ds).map (fun n => -(n : Int))
    else if c = '+' then (digitsToNat ds).map (fun n => (n : Int))
    else (digitsToNat (c :: ds)).map (fun n => (n : Int))

/-- Python's int(str) on a character list, stripping whitespace first. -/
def pyIntL (l : List Char) : Option Int :=
  pyIntCore (stripSpaces l)

/-- Python's int(str). -/
def pyInt (s : String) : Option Int :=
  pyIntL s.data

/-- Python's str.split(sep) for a one-character separator: splits at
every occurrence, keeping empty pieces, so the result is always
nonempty. -/
def splitChar (sep : Char) : List Char → List (List Char)
  | [] => [[]]
  | c :: rest =>
    match splitChar sep rest, decide (c = sep) with
    | ls, true => [] :: ls
    | l :: ls, false => (c :: l) :: ls
    | [], false => [[c]]

/-!
The section table.  A Python dict from header line to list of body
lines (src/apps/kf2.py, read_ini_file_to_table) is embedded as an
association list; assignment overwrites in place at the existing key's
position or appends a fresh key at the end, exactly as a dict preserving
insertion order does.
-/

/-- A section table: ordered header line to body lines. -/
abbrev Table : Type := List (String × List String)

/-- Dict lookup: table[k] without the KeyError, as an Option. -/
def alookup : Table → String → Option (List String)
  | [], _ => none
  | p :: t, k => if p.1 = k then some p.2 else alookup t k

/-- Dict assignment table[k] = v: overwrite in place, else append. -/
def aset : Table → String → List String → Table
  | [], k, v => [(k, v)]
  | p :: t, k, v => if p.1 = k then (k, v) :: t else p :: aset t k v

/-- Dict deletion del table[k]. -/
def adel : Table → String → Table
  | [], _ => []
  | p :: t, k => if p.1 = k then adel t k else p :: adel t k

/-- Dict setdefault(k, v): returns the updated table and the value now
stored at k. -/
def setdefault (t : Table) (k : String) (v : List String) :
    Table × List String :=
  match alookup t k with
  | some w => (t, w)
  | none => (t ++ [(k, v)], v)

/-- The header lines of a table, in order. -/
def akeys (t : Table) : List String :=
  t.map Prod.fst

/-!
ConfigStore (src/apps/kf2.py, read_ini_file_to_table and
write_table_to_ini_file).  File IO is abstracted to the content string:
read takes the file's text, write returns the text that would be
written.
-/

/-- One pass splitting text on runs of two or more newline characters,
as re.split of a newline-newline-plus pattern does; the Nat argument
counts pending newline characters not yet committed to either side. -/
def blocksGo : List Char → List Char → Nat → List (List Char)
  | [], acc, p =>
    if p = 0 then [acc.reverse]
    else if p = 1 then [('\n' :: acc).reverse]
    else [acc.reverse, []]
  | c :: cs, acc, p =>
    if c = '\n' then blocksGo cs acc (p + 1)
    else if p = 0 then blocksGo cs (c :: acc) 0
    else if p = 1 then blocksGo cs (c :: '\n' :: acc) 0
    else acc.reverse :: blocksGo cs [c] 0

/-- re.split of the newline-newline-plus pattern over the file text. -/
def splitBlocks (s : String) : List (List Char) :=
  blocksGo s.data [] 0

/-- First line of a block is the header, the rest is the body
(header_line, *lines = section.split of a newline). -/
def parseSection (b : List Char) : String × List String :=
  match splitChar '\n' b with
  | [] => ("", [])
  | h :: rest => (String.mk h, rest.map String.mk)

/-- read_ini_file_to_table on the file's text: split into blocks and
fill a dict, later sections with a duplicate header overwriting
earlier ones in place. -/
def readIniContent (content : String) : Table :=
  ((splitBlocks content).map parseSection).foldl
    (fun t s => aset t s.1 s.2) []

/-- Python's newline-join of a list of strings. -/
def joinNlStr : List String → String
  | [] => ""
  | [s] => s
  | s :: rest => s ++ "\n" ++ joinNlStr rest

/-- write_table_to_ini_file: header, body lines and one empty line per
section, joined with single newlines. -/
def writeTableToIni (t : Table) : String :=
  joinNlStr (List.flatten (t.map (fun kv => kv.1 :: kv.2 ++ [""])))

/-!
KF2 workshop subscription management (src/apps/kf2.py,
set_workshop_items and remove_workshop_items).
-/

/-- The fixed subscription section header. -/
def workshopSectionKey : String :=
  "[OnlineSubsystemSteamworks.KFWorkshopSteamworks]"

/-- The fixed game-info section header. -/
def gameinfoSectionKey : String := "[KFGame.KFGameInfo]"

/-- One serialized subscription line, percent-s formatting of the id. -/
def mkItemLine (i : Int) : String :=
  String.mk ("ServerSubscribedWorkshopItems=".data ++ intChars i)

/-- int(line.split of an equals sign, index one): the text between the
first and second equals sign parsed as an int; none models the
IndexError on a line without an equals sign and the ValueError on a
non-integer field. -/
def parseItemLine (line : String) : Option Int :=
  match (splitChar '=' line.data).get? 1 with
  | none => none
  | some field => pyIntL field

/-- A Python list comprehension with a fallible element expression:
left to right, the first exception aborts the whole comprehension. -/
def parseLines : List String → Option (List Int)
  | [] => some []
  | l :: ls =>
    match parseItemLine l, parseLines ls with
    | some i, some is => some (i :: is)
    | _, _ => none

/-- Existing ids as parsed by set_workshop_items: only lines containing
an equals sign are considered, each must then parse as an int. -/
def parseItemsSet (body : List String) : Option (List Int) :=
  parseLines (body.filter (fun l => l.data.contains '='))

/-- Existing ids as parsed by remove_workshop_items: every line is
parsed, with no filter. -/
def parseItemsRemove (body : List String) : Option (List Int) :=
  parseLines body

/-!
A model of CPython's set iteration order for small ints: hash of a
small non-negative int is the int itself, the initial table has eight
slots, and iteration walks the slots in order.  It is exact for up to
four distinct non-negative ints whose values are distinct modulo eight
(no probing, no resize); collisions fall back to linear probing, which
no input in this development exercises.
-/

/-- Insert one value into an eight-slot open-addressing table. -/
def probeIns : Nat → Nat → List (Option Int) → Int → List (Option Int)
  | 0, _, tbl, _ => tbl
  | fuel + 1, j, tbl, x =>
    match tbl.get? j with
    | some none => tbl.set j (some x)
    | some (some y) => if y = x then tbl else probeIns fuel ((j + 1) % 8) tbl x
    | none => tbl

/-- Slot of a small non-negative int in an eight-slot table. -/
def cpySlot (x : Int) : Nat :=
  (x % 8).toNat

/-- Iteration order of a CPython set built by inserting the given list
in order: occupied slots read off in slot order. -/
def cpySetList (l : List Int) : List Int :=
  (l.foldl (fun tbl x => probeIns 8 (cpySlot x) tbl x)
    (List.replicate 8 none)).filterMap id

/-- set_workshop_items(items, append) on a table, parametric in the
enumeration function that models Python set iteration (cpySetList for
concrete runs); none models an uncaught ValueError while parsing the
existing subscription lines. -/
def setWorkshopItems (enum : List Int → List Int) (t : Table)
    (items : List Int) (append : Bool) : Option Table :=
  match parseItemsSet (setdefault t workshopSectionKey []).2 with
  | none => none
  | some existing =>
    some (aset (setdefault t workshopSectionKey []).1 workshopSectionKey
      ((enum (if append then items ++ existing else items)).map mkItemLine))

/-- remove_workshop_items(items) on a table; none for the items
argument models Python's None default, and a none result models an
uncaught IndexError or ValueError while parsing existing lines, which
are parsed before the None test. -/
def removeWorkshopItems (t : Table) (items : Option (List Int)) :
    Option Table :=
  match parseItemsRemove (setdefault t workshopSectionKey []).2 with
  | none => none
  | some existing =>
    match items with
    | none => some (adel (setdefault t workshopSectionKey []).1 workshopSectionKey)
    | some its =>
      some (aset (setdefault t workshopSectionKey []).1 workshopSectionKey
        ((existing.filter (fun i => ¬i ∈ its)).map mkItemLine))

/-!
Cache reconciliation (src/apps/kf2.py, clear_unregistered_workshop_maps).
The filesystem is abstracted: the cache directory listing is a
parameter and the function returns the list of directory names removed
by rmtree, in listing order.
-/

/-- re.search of a digit-run pattern: the first maximal run of decimal
digits in the string, if any. -/
def firstDigitRun : List Char → Option String
  | [] => none
  | c :: cs =>
    if isDig c then some (String.mk (c :: cs.takeWhile isDig))
    else firstDigitRun cs

/-- The set of subscribed-map id strings: the first digit run of every
line of the subscription section; none models the KeyError when the
section is absent. -/
def subscribedIdStrings (t : Table) : Option (List String) :=
  match alookup t workshopSectionKey with
  | none => none
  | some body => some (body.filterMap (fun l => firstDigitRun l.data))

/-- clear_unregistered_workshop_maps: every cache directory whose name
is not among the subscribed id strings is removed; the result is the
list of removed names. -/
def clearUnregisteredWorkshopMaps (t : Table) (cacheDirs : List String) :
    Option (List String) :=
  match subscribedIdStrings t with
  | none => none
  | some ids => some (cacheDirs.filter (fun d => ¬d ∈ ids))

/-!
Map summary rebuilding (src/apps/kf2.py, rebuild_map_summaries).  The
filesystem scan get_custom_map_names is abstracted as the names
parameter.
-/

/-- Does the regular expression bracket, dot-plus, space-KFMapSummary-
bracket match at the start of the line: a bracket, then at least one
non-newline character, then the literal. -/
def scanSummaryLit : List Char → Bool
  | [] => false
  | c :: cs =>
    c ≠ '\n' && (" KFMapSummary]".data.isPrefixOf cs || scanSummaryLit cs)

/-- re.match of the map-summary header pattern. -/
def reMatchSummary (h : String) : Bool :=
  match h.data with
  | '[' :: rest => scanSummaryLit rest
  | _ => false

/-- Header of a generated map-summary section. -/
def summaryHeader (name : String) : String :=
  "[" ++ name ++ " KFMapSummary]"

/-- Body of a generated map-summary section. -/
def summaryBody (name : String) : List String :=
  ["MapName=" ++ name]

/-- rebuild_map_summaries on a table, with the catalog scan abstracted
as names: delete every section whose header matches the summary
pattern and whose body is exactly one line, then assign a fresh
one-line summary section for every catalog name. -/
def rebuildMapSummaries (t : Table) (names : List String) : Table :=
  names.foldl (fun acc n => aset acc (summaryHeader n) (summaryBody n))
    (t.filter (fun kv => ¬(reMatchSummary kv.1 ∧ kv.2.length = 1)))

/-!
Map cycle rebuilding (src/apps/kf2.py, rebuild_custom_mapcycle).
-/

/-- Python list indexing, with negative indices counting from the end;
none models IndexError. -/
def pyGetItem {α : Type} (l : List α) (i : Int) : Option α :=
  if 0 ≤ i then l.get? i.toNat
  else if 0 ≤ (l.length : Int) + i then l.get? ((l.length : Int) + i).toNat
  else none

/-- Python list.insert: clamp the position into range, then insert. -/
def pyInsert {α : Type} (l : List α) (i : Int) (x : α) : List α :=
  let j := (if i < 0 then max ((l.length : Int) + i) 0 else i).toNat
  l.take j ++ x :: l.drop j

/-- Stable insertion sort with a boolean order, modelling sorted() on
strings (both compare lexicographically by code point). -/
def insertSorted (x : String) : List String → List String
  | [] => [x]
  | y :: ys => if x ≤ y then x :: y :: ys else y :: insertSorted x ys

/-- sorted() on a list of strings. -/
def pySorted (l : List String) : List String :=
  l.foldr insertSorted []

/-- The rebuilt map-cycle line: sorted names, each quoted, joined with
commas inside the GameMapCycles wrapper. -/
def mkCycleLine (names : List String) : String :=
  "GameMapCycles=(Maps=("
    ++ ",".intercalate ((pySorted names).map (fun x => "\"" ++ x ++ "\""))
    ++ "))"

/-- Does a body line start with the cycle-line prefix. -/
def isCycleLine (l : String) : Bool :=
  "GameMapCycles".data.isPrefixOf l.data

/-- The enumerate loop collecting positions of cycle lines, carrying
the position of the head of the remaining list. -/
def cycleIdxsGo (i : Nat) : List String → List Nat
  | [] => []
  | l :: ls =>
    if isCycleLine l then i :: cycleIdxsGo (i + 1) ls
    else cycleIdxsGo (i + 1) ls

/-- Positions of the lines of a section body that start with the
cycle-line prefix, in body order. -/
def cycleIdxs (lines : List String) : List Nat :=
  cycleIdxsGo 0 lines

/-- rebuild_custom_mapcycle(index) on a table, with the catalog scan
abstracted as names.  none models an uncaught KeyError (game-info
section absent) or IndexError (no cycle line exists on the append
path, or a too-negative index on the overwrite path). -/
def rebuildCustomMapcycle (t : Table) (names : List String) (index : Int) :
    Option Table :=
  match alookup t gameinfoSectionKey with
  | none => none
  | some gameinfo =>
    let idxs := cycleIdxs gameinfo
    let newLine := mkCycleLine names
    if (idxs.length : Int) - 1 < index then
      match idxs.getLast? with
      | none => none
      | some last =>
        some (aset t gameinfoSectionKey
          (pyInsert gameinfo ((last : Int) + 1) newLine))
    else
      match pyGetItem idxs index with
      | none => none
      | some i =>
        some (aset t gameinfoSectionKey (gameinfo.set i newLine))

/-!
The supervision loop (src/presets/tptiap_kf2.py, start_kf2_server_loop).
One iteration of the inner monitor loop is embedded as a pure step
function from the two poll results and the wall clock to the actions
performed and the loop outcome.  The steam process is the content
update agent, the kf2 process is the game server.
-/

/-- The two supervised processes. -/
inductive Proc : Type
  | agent : Proc
  | server : Proc
deriving DecidableEq, Repr

/-- Observable actions of one monitor-loop iteration. -/
inductive Act : Type
  | terminate : Proc → Act
  | wait : Proc → Act
  | start : Proc → Act
  | sleep : Act
deriving DecidableEq, Repr

/-- What the iteration decides: return from the function (the stopped
terminal state), break to the restart path, or continue polling with
the updated edge-trigger flag. -/
inductive Outcome : Type
  | stopped : Outcome
  | breakRestart : Outcome
  | continueLoop : Bool → Outcome
deriving DecidableEq, Repr

/-- One iteration of the monitor loop: poll the server, poll the
agent, then the restart-hour edge trigger, then sleep. -/
def monitorStep (serverPoll agentPoll : Option Int)
    (hour restartHour : Nat) (isRestartHour : Bool) : List Act × Outcome :=
  if serverPoll.isSome then
    ([Act.terminate Proc.agent, Act.wait Proc.agent], Outcome.stopped)
  else if agentPoll.isSome then
    ([Act.terminate Proc.server, Act.wait Proc.server], Outcome.stopped)
  else if hour = restartHour ∧ isRestartHour then
    ([], Outcome.breakRestart)
  else
    ([Act.sleep],
      Outcome.continueLoop (if hour ≠ restartHour then true else isRestartHour))

/-- The body of the last entry carrying a given header in a list of
parsed sections, used to specify the dict-building fold of the reader. -/
def lookupLast : List (String × List String) → String → Option (List String)
  | [], _ => none
  | p :: rest, q =>
    match lookupLast rest q with
    | some v => some v
    | none => if p.1 = q then some p.2 else none

/-- A line fit to live inside a section body or as a header: nonempty
and free of newline characters. -/
def lineOk (s : String) : Prop :=
  s ≠ "" ∧ '\n' ∉ s.data

instance (s : String) : Decidable (lineOk s) := by
  unfold lineOk
  infer_instance

/-- A well-formed table: unique headers and every header and body line
nonempty and newline-free. -/
def wfTable (t : Table) : Prop :=
  (akeys t).Nodup ∧ ∀ kv ∈ t, lineOk kv.1 ∧ ∀ l ∈ kv.2, lineOk l

instance (t : Table) : Decidable (wfTable t) := by
  unfold wfTable
  infer_instance

/-!
Supporting lemmas about the embedded primitives.
-/

theorem dval_digitChar {d : Nat} (h : d < 10) : dval (digitChar d) = d := by
  interval_cases d <;> decide

theorem isDig_digitChar {d : Nat} (h : d < 10) : isDig (digitChar d) = true := by
  interval_cases d <;> decide

/-- With enough fuel the printer is fuel-independent. -/
theorem ntoaGo_fuel (n : Nat) : ∀ fuel acc, n ≤ fuel →
    ntoaGo n fuel acc = ntoaGo n n acc := by
  induction n using Nat.strong_induction_on with
  | _ n ih =>
    intro fuel acc hfuel
    match n, fuel with
    | 0, fuel => cases fuel <;> rfl
    | n + 1, 0 => omega
    | n + 1, fuel + 1 =>
      have hdiv : (n + 1) / 10 < n + 1 := Nat.div_lt_self (by omega) (by omega)
      have h1 : ntoaGo (n + 1) (fuel + 1) acc
          = ntoaGo ((n + 1) / 10) fuel (digitChar ((n + 1) % 10) :: acc) := rfl
      have h2 : ntoaGo (n + 1) (n + 1) acc
          = ntoaGo ((n + 1) / 10) n (digitChar ((n + 1) % 10) :: acc) := rfl
      rw [h1, h2, ih _ hdiv fuel _ (by omega), ih _ hdiv n _ (by omega)]

/-- The accumulator is appended untouched behind the printed digits. -/
theorem ntoaGo_acc (n : Nat) : ∀ fuel acc, n ≤ fuel →
    ntoaGo n fuel acc = ntoaGo n fuel [] ++ acc := by
  induction n using Nat.strong_induction_on with
  | _ n ih =>
    intro fuel acc hfuel
    match n, fuel with
    | 0, fuel => simp [ntoaGo]
    | n + 1, 0 => omega
    | n + 1, fuel + 1 =>
      have hdiv : (n + 1) / 10 < n + 1 := Nat.div_lt_self (by omega) (by omega)
      show ntoaGo ((n + 1) / 10) fuel (digitChar ((n + 1) % 10) :: acc)
        = ntoaGo ((n + 1) / 10) fuel [digitChar ((n + 1) % 10)] ++ acc
      rw [ih _ hdiv fuel (digitChar ((n + 1) % 10) :: acc) (by omega),
        ih _ hdiv fuel [digitChar ((n + 1) % 10)] (by omega)]
      simp

/-- One unfolding of ntoa for positive arguments. -/
theorem ntoa_pos_eq {n : Nat} (h : 0 < n) :
    ntoa n = ntoaGo (n / 10) (n / 10) [] ++ [digitChar (n % 10)] := by
  match n, h with
  | n + 1, _ =>
    show ntoaGo (n + 1) (n + 1) [] = _
    have h1 : ntoaGo (n + 1) (n + 1) []
        = ntoaGo ((n + 1) / 10) n [digitChar ((n + 1) % 10)] := rfl
    rw [h1]
    have hdiv : (n + 1) / 10 ≤ n := by
      have h10 : (1 : Nat) < 10 := by omega
      have := Nat.div_lt_self (Nat.succ_pos n) h10
      omega
    rw [ntoaGo_fuel _ n _ hdiv, ntoaGo_acc _ ((n+1)/10) _ (le_refl _)]

theorem ntoaGo_self_eq_ntoa {n : Nat} (h : 0 < n) :
    ntoaGo n n [] = ntoa n := by
  match n, h with
  | n + 1, _ => rfl

theorem valAux_append (l : List Char) (c : Char) (a : Nat) :
    valAux (l ++ [c]) a = 10 * valAux l a + dval c := by
  simp [valAux, List.foldl_append]

/-- The decimal printer round-trips through Horner evaluation. -/
theorem valAux_ntoa (n : Nat) : valAux (ntoa n) 0 = n := by
  induction n using Nat.strong_induction_on with
  | _ n ih =>
    rcases Nat.eq_zero_or_pos n with hz | hp
    · subst hz; decide
    · rw [ntoa_pos_eq hp]
      rcases Nat.eq_zero_or_pos (n / 10) with hz10 | hp10
      · rw [hz10]
        show valAux ([] ++ [digitChar (n % 10)]) 0 = n
        rw [valAux_append]
        have : n % 10 = n := by omega
        rw [this, dval_digitChar (by omega)]
        simp [valAux]
      · rw [ntoaGo_self_eq_ntoa hp10, valAux_append,
          ih (n / 10) (Nat.div_lt_self hp (by omega)),
          dval_digitChar (Nat.mod_lt n (by omega))]
        omega

/-- Every printed character is a decimal digit. -/
theorem ntoa_all_dig (n : Nat) : (ntoa n).all isDig = true := by
  induction n using Nat.strong_induction_on with
  | _ n ih =>
    rcases Nat.eq_zero_or_pos n with hz | hp
    · subst hz; decide
    · rw [ntoa_pos_eq hp]
      rcases Nat.eq_zero_or_pos (n / 10) with hz10 | hp10
      · rw [hz10]
        show (([] : List Char) ++ [digitChar (n % 10)]).all isDig = true
        simp [isDig_digitChar (Nat.mod_lt n (by omega))]
      · rw [ntoaGo_self_eq_ntoa hp10, List.all_append]
        simp only [Bool.and_eq_true]
        exact ⟨ih (n / 10) (Nat.div_lt_self hp (by omega)),
          by simp [isDig_digitChar (Nat.mod_lt n (by omega))]⟩

theorem ntoa_ne_nil (n : Nat) : ntoa n ≠ [] := by
  rcases Nat.eq_zero_or_pos n with hz | hp
  · subst hz; decide
  · rw [ntoa_pos_eq hp]; simp

theorem digitsToNat_ntoa (n : Nat) : digitsToNat (ntoa n) = some n := by
  rw [digitsToNat, if_pos ⟨ntoa_ne_nil n, ntoa_all_dig n⟩, valAux_ntoa]

theorem isDig_not_space {c : Char} (h : isDig c = true) : isPySpace c = false := by
  simp only [isDig, Bool.and_eq_true, decide_eq_true_eq] at h
  simp only [isPySpace, Bool.or_eq_false_iff, decide_eq_false_iff_not]
  refine ⟨⟨⟨⟨⟨?_, ?_⟩, ?_⟩, ?_⟩, ?_⟩, ?_⟩ <;>
    (intro he; rw [he] at h; revert h; decide)

theorem dropWhile_eq_self_of_none {p : Char → Bool} (m : List Char)
    (h : ∀ c ∈ m, p c = false) : m.dropWhile p = m := by
  cases m with
  | nil => rfl
  | cons c cs =>
    rw [List.dropWhile_cons, h c (List.mem_cons_self c cs)]
    simp

theorem stripSpaces_of_no_space {l : List Char}
    (h : ∀ c ∈ l, isPySpace c = false) : stripSpaces l = l := by
  rw [stripSpaces, dropWhile_eq_self_of_none l h,
    dropWhile_eq_self_of_none l.reverse (fun c hc => h c (List.mem_reverse.mp hc)),
    List.reverse_reverse]

theorem stripSpaces_of_all_dig {l : List Char} (h : l.all isDig = true) :
    stripSpaces l = l := by
  rw [List.all_eq_true] at h
  exact stripSpaces_of_no_space (fun c hc => isDig_not_space (h c hc))

theorem isDig_ne_minus {c : Char} (h : isDig c = true) : c ≠ '-' := by
  intro he; rw [he] at h; revert h; decide

theorem isDig_ne_plus {c : Char} (h : isDig c = true) : c ≠ '+' := by
  intro he; rw [he] at h; revert h; decide

/-- int() inverts the decimal printer on all integers. -/
theorem pyIntL_intChars (i : Int) : pyIntL (intChars i) = some i := by
  rcases lt_or_le i 0 with hneg | hpos
  · rw [intChars, if_pos hneg, pyIntL]
    have hstrip : stripSpaces ('-' :: ntoa i.natAbs) = '-' :: ntoa i.natAbs := by
      apply stripSpaces_of_no_space
      intro c hc
      rcases List.mem_cons.mp hc with he | hmem
      · subst he; decide
      · have := ntoa_all_dig i.natAbs
        rw [List.all_eq_true] at this
        exact isDig_not_space (this _ hmem)
    rw [hstrip]
    show Option.map (fun n => -(n : Int)) (digitsToNat (ntoa i.natAbs)) = some i
    rw [digitsToNat_ntoa]
    show some (-(i.natAbs : Int)) = some i
    congr 1
    omega
  · rw [intChars, if_neg (by omega), pyIntL,
      stripSpaces_of_all_dig (ntoa_all_dig i.toNat)]
    have hne := ntoa_ne_nil i.toNat
    rcases hc : ntoa i.toNat with _ | ⟨c, ds⟩
    · exact absurd hc hne
    · have hdig : isDig c = true := by
        have := ntoa_all_dig i.toNat
        rw [hc] at this
        simp only [List.all_cons, Bool.and_eq_true] at this
        exact this.1
      rw [pyIntCore, if_neg (isDig_ne_minus hdig), if_neg (isDig_ne_plus hdig),
        ← hc, digitsToNat_ntoa]
      show some ((i.toNat : Int)) = some i
      congr 1
      omega

theorem aset_cons_pos {p : String × List String} {t : Table} {k : String}
    {v : List String} (h : p.1 = k) : aset (p :: t) k v = (k, v) :: t := by
  simp [aset, h]

theorem aset_cons_neg {p : String × List String} {t : Table} {k : String}
    {v : List String} (h : ¬p.1 = k) : aset (p :: t) k v = p :: aset t k v := by
  simp [aset, h]

theorem alookup_cons_pos {p : String × List String} {t : Table} {q : String}
    (h : p.1 = q) : alookup (p :: t) q = some p.2 := by
  simp [alookup, h]

theorem alookup_cons_neg {p : String × List String} {t : Table} {q : String}
    (h : ¬p.1 = q) : alookup (p :: t) q = alookup t q := by
  simp [alookup, h]

theorem akeys_cons (p : String × List String) (t : Table) :
    akeys (p :: t) = p.1 :: akeys t := rfl

theorem alookup_aset (t : Table) (k : String) (v : List String) (q : String) :
    alookup (aset t k v) q = if q = k then some v else alookup t q := by
  induction t with
  | nil =>
    show alookup [(k, v)] q = _
    by_cases h : q = k
    · rw [alookup_cons_pos h.symm, if_pos h]
    · rw [alookup_cons_neg (fun he => h he.symm), if_neg h]
  | cons p t ih =>
    by_cases hp : p.1 = k
    · rw [aset_cons_pos hp]
      by_cases hq : q = k
      · rw [alookup_cons_pos hq.symm, if_pos hq]
      · rw [alookup_cons_neg (fun he => hq he.symm), if_neg hq,
          alookup_cons_neg (fun he : p.1 = q => hq (he.symm.trans hp))]
    · rw [aset_cons_neg hp]
      by_cases hpq : p.1 = q
      · rw [alookup_cons_pos hpq, alookup_cons_pos hpq,
          if_neg (fun he : q = k => hp (hpq.trans he))]
      · rw [alookup_cons_neg hpq, alookup_cons_neg hpq, ih]

theorem akeys_aset_mem (t : Table) (k : String) (v : List String)
    (h : k ∈ akeys t) : akeys (aset t k v) = akeys t := by
  induction t with
  | nil => simp [akeys] at h
  | cons p t ih =>
    by_cases hp : p.1 = k
    · rw [aset_cons_pos hp, akeys_cons, akeys_cons, hp]
    · rw [aset_cons_neg hp, akeys_cons, akeys_cons]
      rw [akeys_cons, List.mem_cons] at h
      exact congrArg _ (ih (h.resolve_left (fun he => hp he.symm)))

theorem akeys_aset_not_mem (t : Table) (k : String) (v : List String)
    (h : k ∉ akeys t) : akeys (aset t k v) = akeys t ++ [k] := by
  induction t with
  | nil => rfl
  | cons p t ih =>
    rw [akeys_cons] at h
    have hp : ¬p.1 = k := fun he => h (he ▸ List.mem_cons_self _ _)
    rw [aset_cons_neg hp, akeys_cons, akeys_cons, List.cons_append]
    exact congrArg _ (ih (fun hm => h (List.mem_cons_of_mem _ hm)))

theorem akeys_aset_nodup (t : Table) (k : String) (v : List String)
    (h : (akeys t).Nodup) : (akeys (aset t k v)).Nodup := by
  by_cases hm : k ∈ akeys t
  · rw [akeys_aset_mem t k v hm]; exact h
  · rw [akeys_aset_not_mem t k v hm]
    simp [List.nodup_append, h, hm]

theorem alookup_eq_none_of_not_mem (t : Table) (q : String)
    (h : q ∉ akeys t) : alookup t q = none := by
  induction t with
  | nil => rfl
  | cons p t ih =>
    have hp : p.1 ≠ q := fun he => h (by simp [akeys, he])
    rw [alookup, if_neg hp]
    exact ih (fun hm => h (by simp [akeys] at hm ⊢; right; exact hm))

theorem akeys_filter_subset (p : String × List String → Bool) (t : Table)
    (q : String) (h : q ∈ akeys (t.filter p)) : q ∈ akeys t := by
  induction t with
  | nil => simpa [akeys] using h
  | cons e t ih =>
    by_cases hpe : p e
    · rw [List.filter_cons_of_pos hpe] at h
      simp only [akeys, List.map_cons, List.mem_cons] at h ⊢
      exact h.imp id ih
    · rw [List.filter_cons_of_neg hpe] at h
      simp only [akeys, List.map_cons, List.mem_cons]
      exact Or.inr (ih h)

/-- Lookup into a filtered table, given unique headers. -/
theorem alookup_filter (p : String × List String → Bool) (t : Table)
    (q : String) (hnd : (akeys t).Nodup) :
    alookup (t.filter p) q =
      match alookup t q with
      | some v => if p (q, v) then some v else none
      | none => none := by
  induction t with
  | nil => rfl
  | cons e t ih =>
    simp only [akeys, List.map_cons, List.nodup_cons] at hnd
    by_cases he : e.1 = q
    · by_cases hpe : p e
      · rw [List.filter_cons_of_pos hpe, alookup_cons_pos he,
          alookup_cons_pos he]
        show some e.2 = if p (q, e.2) then some e.2 else none
        rw [← he, show ((e.1, e.2) : String × List String) = e from rfl,
          if_pos hpe]
      · rw [List.filter_cons_of_neg hpe, alookup_cons_pos he]
        have hnone : alookup (t.filter p) q = none := by
          apply alookup_eq_none_of_not_mem
          intro hm
          exact hnd.1 (he ▸ akeys_filter_subset p t q hm)
        rw [hnone]
        show none = if p (q, e.2) then some e.2 else none
        rw [← he, show ((e.1, e.2) : String × List String) = e from rfl,
          if_neg hpe]
    · by_cases hpe : p e
      · rw [List.filter_cons_of_pos hpe, alookup_cons_neg he,
          alookup_cons_neg he]
        exact ih hnd.2
      · rw [List.filter_cons_of_neg hpe, alookup_cons_neg he]
        exact ih hnd.2

theorem alookup_foldl_aset (l : List (String × List String)) :
    ∀ (acc : Table) (q : String),
      alookup (l.foldl (fun t s => aset t s.1 s.2) acc) q =
        match lookupLast l q with
        | some v => some v
        | none => alookup acc q := by
  induction l with
  | nil => intro acc q; rfl
  | cons p l ih =>
    intro acc q
    show alookup (l.foldl (fun t s => aset t s.1 s.2) (aset acc p.1 p.2)) q = _
    rw [ih (aset acc p.1 p.2) q]
    cases hl : lookupLast l q with
    | some v => simp [lookupLast, hl]
    | none =>
      simp only [lookupLast, hl, alookup_aset]
      by_cases hq : q = p.1
      · rw [if_pos hq, if_pos hq.symm]
      · rw [if_neg hq, if_neg (fun he => hq he.symm)]

theorem akeys_foldl_aset_nodup (l : List (String × List String)) :
    ∀ acc : Table, (akeys acc).Nodup →
      (akeys (l.foldl (fun t s => aset t s.1 s.2) acc)).Nodup := by
  induction l with
  | nil => intro acc h; exact h
  | cons p l ih =>
    intro acc h
    exact ih (aset acc p.1 p.2) (akeys_aset_nodup acc p.1 p.2 h)

/-!
Claim C10.
-/

/-- Claim C10: for every input file text, reading yields a table with unique
headers in which each header is mapped to the body of the last section
carrying it in file order; reading is total so it never fails on
duplicate headers.  The concrete conjunct shows a file with two
sections headed the same keeping only the later body. -/
theorem read_ini_duplicate_headers_last_wins :
    (∀ content : String,
      (akeys (readIniContent content)).Nodup
      ∧ ∀ q, alookup (readIniContent content) q =
          lookupLast ((splitBlocks content).map parseSection) q)
    ∧ readIniContent "[A]\nx\n\n[A]\ny" = [("[A]", ["y"])] := by
  constructor
  · intro content
    constructor
    · exact akeys_foldl_aset_nodup _ [] List.nodup_nil
    · intro q
      rw [readIniContent, alookup_foldl_aset]
      cases lookupLast ((splitBlocks content).map parseSection) q <;> rfl
  · rfl

/-!
Claim C8.  The claim requires the supervisor, on seeing the update
agent exited while the server is alive, to wait on both handles; the
code waits only on the server handle it terminated, having already
reaped the agent with the non-blocking poll.
-/

/-- Claim C8 counterexample: with the agent exited (poll result zero) and
the server alive, the iteration's actions contain no wait on the agent
handle, so the supervisor does not wait on both handles as claimed. -/
theorem monitor_agent_exit_no_wait_on_agent :
    ¬Act.wait Proc.agent ∈ (monitorStep none (some 0) 3 6 false).1 := by
  decide

/-- Claim C8 amended: when the update agent reports exited while the server
is still alive, the iteration terminates the server handle, waits on
the server handle (the agent's exit was already reaped by the poll),
starts nothing, and returns, reaching the terminal stopped state. -/
theorem monitor_agent_exit_stops (c : Int) (hour restartHour : Nat)
    (flag : Bool) :
    monitorStep none (some c) hour restartHour flag
      = ([Act.terminate Proc.server, Act.wait Proc.server], Outcome.stopped)
    ∧ ∀ p a, a ∈ (monitorStep none (some c) hour restartHour flag).1 →
        a ≠ Act.start p := by
  constructor
  · rfl
  · intro p a ha
    have : a = Act.terminate Proc.server ∨ a = Act.wait Proc.server := by
      simpa [monitorStep] using ha
    rcases this with h | h <;> (subst h; intro he; cases he)

/-!
Claim C3.  The source serializes set(items) in Python set iteration
order, not ascending numeric order; the spec itself flags the original
unordered iteration as a defect its design corrects.  With the CPython
small-int model, inserting 8 then 1 occupies slots zero and one, so
iteration yields 8 before 1: descending, not ascending.
-/

/-- Claim C3: evaluating set_workshop_items at items [8, 1] in replace mode
produces the line for 8 before the line for 1, which is not the
ascending order the claim requires. -/
theorem set_items_not_sorted_at_8_1 :
    setWorkshopItems cpySetList [] [8, 1] false
      = some [(workshopSectionKey, [mkItemLine 8, mkItemLine 1])]
    ∧ [mkItemLine 8, mkItemLine 1] ≠ [mkItemLine 1, mkItemLine 8] := by
  constructor
  · rfl
  · decide

theorem alookup_adel_self (t : Table) (k : String) :
    alookup (adel t k) k = none := by
  induction t with
  | nil => rfl
  | cons p t ih =>
    by_cases hp : p.1 = k
    · simpa [adel, hp] using ih
    · simpa [adel, hp, alookup_cons_neg hp] using ih

theorem alookup_adel_ne (t : Table) (k q : String) (h : q ≠ k) :
    alookup (adel t k) q = alookup t q := by
  induction t with
  | nil => rfl
  | cons p t ih =>
    by_cases hp : p.1 = k
    · rw [show adel (p :: t) k = adel t k by simp [adel, hp], ih,
        alookup_cons_neg (fun he : p.1 = q => h (he ▸ hp ▸ rfl))]
    · rw [show adel (p :: t) k = p :: adel t k by simp [adel, hp]]
      by_cases hpq : p.1 = q
      · rw [alookup_cons_pos hpq, alookup_cons_pos hpq]
      · rw [alookup_cons_neg hpq, alookup_cons_neg hpq, ih]

theorem alookup_append_single (t : Table) (k : String) (v : List String)
    (q : String) :
    alookup (t ++ [(k, v)]) q =
      match alookup t q with
      | some w => some w
      | none => if k = q then some v else none := by
  induction t with
  | nil => rfl
  | cons p t ih =>
    by_cases hp : p.1 = q
    · rw [List.cons_append, alookup_cons_pos hp, alookup_cons_pos hp]
    · rw [List.cons_append, alookup_cons_neg hp, alookup_cons_neg hp, ih]

theorem setdefault_lookup_ne (t : Table) (k : String) (v : List String)
    (q : String) (h : q ≠ k) :
    alookup (setdefault t k v).1 q = alookup t q := by
  rw [setdefault]
  cases hk : alookup t k with
  | some w => rfl
  | none =>
    show alookup (t ++ [(k, v)]) q = alookup t q
    rw [alookup_append_single]
    cases alookup t q with
    | some w => rfl
    | none => exact if_neg (fun he : k = q => h he.symm)

theorem setdefault_lookup_self (t : Table) (k : String) (v : List String) :
    alookup (setdefault t k v).1 k = some (setdefault t k v).2 := by
  rw [setdefault]
  cases hk : alookup t k with
  | some w => exact hk
  | none =>
    show alookup (t ++ [(k, v)]) k = some v
    rw [alookup_append_single, hk]
    simp

theorem parseLines_all_some {ls : List String}
    (h : ∀ l ∈ ls, parseItemLine l ≠ none) :
    ∃ is, parseLines ls = some is := by
  induction ls with
  | nil => exact ⟨[], rfl⟩
  | cons l ls ih =>
    obtain ⟨is, his⟩ := ih (fun x hx => h x (List.mem_cons_of_mem l hx))
    cases hpl : parseItemLine l with
    | none => exact absurd hpl (h l (List.mem_cons_self l ls))
    | some i => exact ⟨i :: is, by simp [parseLines, hpl, his]⟩

theorem filter_idem {α : Type} (p : α → Bool) (l : List α) :
    (l.filter p).filter p = l.filter p := by
  induction l with
  | nil => rfl
  | cons x l ih =>
    by_cases hx : p x
    · rw [List.filter_cons_of_pos hx, List.filter_cons_of_pos hx, ih]
    · rw [List.filter_cons_of_neg hx, ih]

/-!
Claim C6.  remove_workshop_items distinguishes Python None from an
empty collection: only None deletes the subscription section; an empty
list keeps every existing id.
-/

/-- Claim C6 counterexample: remove_items with an empty collection leaves
the subscription section in place with its id intact, rather than
deleting the section as the claim states. -/
theorem remove_items_empty_keeps_section :
    removeWorkshopItems [(workshopSectionKey, [mkItemLine 1])] (some [])
      = some [(workshopSectionKey, [mkItemLine 1])]
    ∧ alookup [(workshopSectionKey, [mkItemLine 1])] workshopSectionKey
        = some [mkItemLine 1] := by
  exact ⟨rfl, rfl⟩

/-- Claim C6 amended: on a table whose subscription lines parse to the id
list E, remove_items with Python None deletes the whole subscription
section, while remove_items with any actual collection, the empty one
included, rewrites the section to exactly the existing ids not in the
collection; other sections are untouched in both cases. -/
theorem remove_items_none_deletes_collection_filters (t : Table)
    (E : List Int)
    (hparse : parseItemsRemove (setdefault t workshopSectionKey []).2
      = some E) :
    (∃ t1, removeWorkshopItems t none = some t1
      ∧ alookup t1 workshopSectionKey = none
      ∧ ∀ q, q ≠ workshopSectionKey → alookup t1 q = alookup t q)
    ∧ ∀ its : List Int, ∃ t2, removeWorkshopItems t (some its) = some t2
      ∧ alookup t2 workshopSectionKey
          = some ((E.filter (fun i => ¬i ∈ its)).map mkItemLine)
      ∧ ∀ q, q ≠ workshopSectionKey → alookup t2 q = alookup t q := by
  constructor
  · refine ⟨adel (setdefault t workshopSectionKey []).1 workshopSectionKey,
      ?_, ?_, ?_⟩
    · simp only [removeWorkshopItems, hparse]
    · exact alookup_adel_self _ _
    · intro q hq
      rw [alookup_adel_ne _ _ _ hq, setdefault_lookup_ne _ _ _ _ hq]
  · intro its
    refine ⟨aset (setdefault t workshopSectionKey []).1 workshopSectionKey
      ((E.filter (fun i => ¬i ∈ its)).map mkItemLine), ?_, ?_, ?_⟩
    · simp only [removeWorkshopItems, hparse]
    · rw [alookup_aset, if_pos rfl]
    · intro q hq
      rw [alookup_aset, if_neg hq, setdefault_lookup_ne _ _ _ _ hq]

/-- Claim C6 witness: the amended theorem applied to a concrete table with
ids 1 and 2, removing id 2. -/
theorem remove_items_c6_witness :
    (∃ t1, removeWorkshopItems
        [(workshopSectionKey, [mkItemLine 1, mkItemLine 2])] none = some t1
      ∧ alookup t1 workshopSectionKey = none
      ∧ ∀ q, q ≠ workshopSectionKey → alookup t1 q
          = alookup [(workshopSectionKey, [mkItemLine 1, mkItemLine 2])] q)
    ∧ ∀ its : List Int, ∃ t2, removeWorkshopItems
        [(workshopSectionKey, [mkItemLine 1, mkItemLine 2])] (some its)
          = some t2
      ∧ alookup t2 workshopSectionKey
          = some (([1, 2].filter (fun i => ¬i ∈ its)).map mkItemLine)
      ∧ ∀ q, q ≠ workshopSectionKey → alookup t2 q
          = alookup [(workshopSectionKey, [mkItemLine 1, mkItemLine 2])] q := by
  exact remove_items_none_deletes_collection_filters
    [(workshopSectionKey, [mkItemLine 1, mkItemLine 2])] [1, 2] rfl

/-!
Claim C5.  Lines without an equals sign are indeed skipped silently by
set_workshop_items, but a line with an equals sign whose field is not
an integer raises ValueError there, and remove_workshop_items parses
every line unfiltered, so malformed lines are fatal to it.
-/

/-- Claim C5 counterexample: a subscription line with an equals sign but no
trailing integer makes set_workshop_items raise (evaluate to none)
rather than being skipped; remove_workshop_items raises even on a line
merely missing the equals sign, before looking at its argument. -/
theorem malformed_lines_are_fatal :
    setWorkshopItems cpySetList [(workshopSectionKey, ["Foo=bar"])] [] false
      = none
    ∧ removeWorkshopItems [(workshopSectionKey, ["Foo"])] none = none := by
  exact ⟨rfl, rfl⟩

/-- Claim C5 amended: set_workshop_items consults only lines containing an
equals sign, so lines without one are skipped silently and never make
it fail: whenever every line that does contain an equals sign parses
to an integer, set_workshop_items succeeds. -/
theorem set_items_skips_lines_without_eq
    (enum : List Int → List Int) (t : Table) (items : List Int) (ap : Bool)
    (h : ∀ l ∈ (setdefault t workshopSectionKey []).2,
      l.data.contains '=' = true → parseItemLine l ≠ none) :
    (∀ body : List String, parseItemsSet body
      = parseItemsSet (body.filter (fun l => l.data.contains '=')))
    ∧ ∃ t1, setWorkshopItems enum t items ap = some t1 := by
  constructor
  · intro body
    rw [parseItemsSet, parseItemsSet, filter_idem]
  · have hall : ∀ l ∈ (setdefault t workshopSectionKey []).2.filter
        (fun l => l.data.contains '='), parseItemLine l ≠ none := by
      intro l hl
      have := List.mem_filter.mp hl
      exact h l this.1 this.2
    obtain ⟨E, hE⟩ := parseLines_all_some hall
    exact ⟨aset (setdefault t workshopSectionKey []).1 workshopSectionKey
      ((enum (if ap then items ++ E else items)).map mkItemLine),
      by simp only [setWorkshopItems, parseItemsSet, hE]⟩

/-- Claim C5 witness: the amended theorem at a table whose subscription body
mixes a line without an equals sign and a well-formed line. -/
theorem set_items_c5_witness :
    (∀ body : List String, parseItemsSet body
      = parseItemsSet (body.filter (fun l => l.data.contains '=')))
    ∧ ∃ t1, setWorkshopItems cpySetList
        [(workshopSectionKey, ["NoEqualsHere", mkItemLine 7])] [1] true
        = some t1 := by
  apply set_items_skips_lines_without_eq
  intro l hl
  rcases List.mem_cons.mp hl with he | hl2
  · subst he
    intro hc
    revert hc
    decide
  · rcases List.mem_cons.mp hl2 with he | hl3
    · subst he
      intro _ hc
      revert hc
      rw [show parseItemLine (mkItemLine 7)
          = some 7 from by rfl]
      intro hc
      cases hc
    · cases hl3

theorem takeWhile_eq_self_of_all {p : Char → Bool} {l : List Char}
    (h : ∀ c ∈ l, p c = true) : l.takeWhile p = l := by
  induction l with
  | nil => rfl
  | cons c cs ih =>
    rw [List.takeWhile_cons, h c (List.mem_cons_self c cs)]
    exact congrArg _ (ih (fun x hx => h x (List.mem_cons_of_mem c hx)))

theorem firstDigitRun_skip {pre : List Char} (m : List Char)
    (h : ∀ c ∈ pre, isDig c = false) :
    firstDigitRun (pre ++ m) = firstDigitRun m := by
  induction pre with
  | nil => rfl
  | cons c cs ih =>
    rw [List.cons_append, firstDigitRun, h c (List.mem_cons_self c cs)]
    exact ih (fun x hx => h x (List.mem_cons_of_mem c hx))

theorem firstDigitRun_mkItemLine (i : Int) (h : 0 ≤ i) :
    firstDigitRun (mkItemLine i).data = some (intStr i) := by
  have hdata : (mkItemLine i).data
      = "ServerSubscribedWorkshopItems=".data ++ intChars i := rfl
  rw [hdata, firstDigitRun_skip _ (by decide)]
  rw [intChars, if_neg (by omega)] at *
  have hall := ntoa_all_dig i.toNat
  rw [List.all_eq_true] at hall
  cases hc : ntoa i.toNat with
  | nil => exact absurd hc (ntoa_ne_nil i.toNat)
  | cons c cs =>
    rw [firstDigitRun, if_pos (hall c (hc ▸ List.mem_cons_self c cs)),
      takeWhile_eq_self_of_all
        (fun x hx => hall x (hc ▸ List.mem_cons_of_mem c hx))]
    rw [intStr, intChars, if_neg (by omega), hc]

theorem filterMap_firstDigitRun_map (E : List Int) (hE : ∀ i ∈ E, 0 ≤ i) :
    (E.map mkItemLine).filterMap (fun l => firstDigitRun l.data)
      = E.map intStr := by
  induction E with
  | nil => rfl
  | cons i E ih =>
    rw [List.map_cons, List.filterMap_cons, List.map_cons,
      firstDigitRun_mkItemLine i (hE i (List.mem_cons_self i E))]
    exact congrArg _ (ih (fun x hx => hE x (List.mem_cons_of_mem i hx)))

/-!
Claim C4.  clear_unregistered_workshop_maps removes exactly the cache
directories whose names match no subscribed id.
-/

/-- Claim C4: on a table whose subscription section holds the lines for the
non-negative ids E, reconciliation removes exactly the cache directory
names not equal to any subscribed id string, and no directory named
after a subscribed id is ever removed. -/
theorem cache_reconcile_exactly_unsubscribed (t : Table) (E : List Int)
    (dirs : List String)
    (hE : ∀ i ∈ E, 0 ≤ i)
    (hb : alookup t workshopSectionKey = some (E.map mkItemLine)) :
    ∃ removed, clearUnregisteredWorkshopMaps t dirs = some removed
      ∧ (∀ d, d ∈ removed ↔ d ∈ dirs ∧ ¬d ∈ E.map intStr)
      ∧ ∀ i ∈ E, ¬intStr i ∈ removed := by
  have hids : subscribedIdStrings t = some (E.map intStr) := by
    simp only [subscribedIdStrings, hb]
    rw [filterMap_firstDigitRun_map E hE]
  refine ⟨dirs.filter (fun d => ¬d ∈ E.map intStr), ?_, ?_, ?_⟩
  · simp only [clearUnregisteredWorkshopMaps, hids]
  · intro d
    simp [List.mem_filter]
  · intro i hi hmem
    rw [List.mem_filter] at hmem
    have h2 : ¬intStr i ∈ E.map intStr := of_decide_eq_true hmem.2
    exact h2 (List.mem_map_of_mem intStr hi)

/-- Claim C4 witness: the theorem applied to subscriptions 12 and 345 with
cache directories 12 and 99; directory 99 is removed, directory 12 is
untouched. -/
theorem cache_reconcile_c4_witness :
    ∃ removed, clearUnregisteredWorkshopMaps
        [(workshopSectionKey, [mkItemLine 12, mkItemLine 345])]
        ["12", "99"] = some removed
      ∧ (∀ d, d ∈ removed ↔ d ∈ ["12", "99"]
          ∧ ¬d ∈ ([12, 345] : List Int).map intStr)
      ∧ ∀ i ∈ ([12, 345] : List Int), ¬intStr i ∈ removed :=
  cache_reconcile_exactly_unsubscribed
    [(workshopSectionKey, [mkItemLine 12, mkItemLine 345])]
    [12, 345] ["12", "99"] (by decide) rfl

/-!
Claim C7.  set_workshop_items in append mode stores the set union of
the given and existing ids, one line per id; Python set semantics make
the stored enumeration a permutation of the deduplicated input.
-/

/-- Claim C7: on a table whose subscription lines parse to the id list E,
set_workshop_items in append mode rewrites the section to one line per
enumerated id, where the enumeration is duplicate-free and holds
exactly the union of the given ids and E; other sections are
untouched. -/
theorem set_items_merge_is_union (enum : List Int → List Int) (t : Table)
    (items E : List Int)
    (hparse : parseItemsSet (setdefault t workshopSectionKey []).2 = some E)
    (henum : List.Perm (enum (items ++ E)) ((items ++ E).dedup)) :
    ∃ t1, setWorkshopItems enum t items true = some t1
      ∧ alookup t1 workshopSectionKey
          = some ((enum (items ++ E)).map mkItemLine)
      ∧ (enum (items ++ E)).Nodup
      ∧ (∀ a, a ∈ enum (items ++ E) ↔ a ∈ items ∨ a ∈ E)
      ∧ ∀ q, q ≠ workshopSectionKey → alookup t1 q = alookup t q := by
  refine ⟨aset (setdefault t workshopSectionKey []).1 workshopSectionKey
    ((enum (items ++ E)).map mkItemLine), ?_, ?_, ?_, ?_, ?_⟩
  · simp only [setWorkshopItems, hparse, if_true]
  · rw [alookup_aset, if_pos rfl]
  · exact henum.nodup_iff.mpr (List.nodup_dedup _)
  · intro a
    rw [henum.mem_iff, List.mem_dedup, List.mem_append]
  · intro q hq
    rw [alookup_aset, if_neg hq, setdefault_lookup_ne _ _ _ _ hq]

/-- Claim C7 witness: replace with ids 1 and 2 then merge with ids 2 and 3;
the stored enumeration is duplicate-free and holds exactly 1, 2, 3. -/
theorem set_items_c7_witness :
    setWorkshopItems cpySetList [] [1, 2] false
      = some [(workshopSectionKey, [mkItemLine 1, mkItemLine 2])]
    ∧ ∃ t1, setWorkshopItems cpySetList
        [(workshopSectionKey, [mkItemLine 1, mkItemLine 2])] [2, 3] true
        = some t1
      ∧ alookup t1 workshopSectionKey
          = some ((cpySetList ([2, 3] ++ [1, 2])).map mkItemLine)
      ∧ (cpySetList ([2, 3] ++ [1, 2])).Nodup
      ∧ (∀ a, a ∈ cpySetList ([2, 3] ++ [1, 2])
          ↔ a ∈ ([2, 3] : List Int) ∨ a ∈ ([1, 2] : List Int))
      ∧ ∀ q, q ≠ workshopSectionKey → alookup t1 q
          = alookup [(workshopSectionKey, [mkItemLine 1, mkItemLine 2])] q :=
  ⟨rfl, set_items_merge_is_union cpySetList
    [(workshopSectionKey, [mkItemLine 1, mkItemLine 2])] [2, 3] [1, 2]
    rfl (by decide)⟩

theorem isPrefixOf_append_self (l m : List Char) :
    l.isPrefixOf (l ++ m) = true := by
  induction l with
  | nil => simp [List.isPrefixOf]
  | cons c cs ih => simpa [List.isPrefixOf] using ih

theorem isCycleLine_mkCycleLine (names : List String) :
    isCycleLine (mkCycleLine names) = true := by
  have hdata : (mkCycleLine names).data
      = "GameMapCycles".data
        ++ ("=(Maps=("
          ++ ",".intercalate ((pySorted names).map (fun x => "\"" ++ x ++ "\""))
          ++ "))").data := by
    rw [mkCycleLine]
    show (String.mk ("GameMapCycles=(Maps=(".data ++ _)).data = _
    show "GameMapCycles=(Maps=(".data ++ _ = _
    show "GameMapCycles".data ++ "=(Maps=(".data ++ _ = _
    rw [List.append_assoc]
    rfl
  rw [isCycleLine, hdata]
  exact isPrefixOf_append_self _ _

theorem cycleIdxsGo_eq_nil_iff (i : Nat) (ls : List String) :
    cycleIdxsGo i ls = [] ↔ ∀ l ∈ ls, ¬isCycleLine l := by
  induction ls generalizing i with
  | nil => simp [cycleIdxsGo]
  | cons l ls ih =>
    by_cases hl : isCycleLine l
    · simp [cycleIdxsGo, hl]
    · simp only [cycleIdxsGo, if_neg hl, ih (i + 1), List.mem_cons]
      constructor
      · intro h x hx
        rcases hx with he | hx
        · subst he; simp [hl]
        · exact h x hx
      · intro h x hx
        exact h x (Or.inr hx)

theorem getLast_of_ne_nil {l : List Nat} (h : l ≠ []) :
    ∃ a, l.getLast? = some a := by
  cases l with
  | nil => exact absurd rfl h
  | cons x xs => exact ⟨(x :: xs).getLast (by simp), List.getLast?_eq_getLast _ _⟩

/-!
Claim C1.  With zero existing cycle lines, rebuild_custom_mapcycle
indexes the empty position list at minus one and raises IndexError, so
the claim's zero-cycle-line case fails; with at least one existing
cycle line and an out-of-range index the insert-after-last behavior
the claim describes does hold and repeated calls keep appending.
-/

/-- Claim C1 counterexample: on a game-info section with no cycle lines,
rebuilding at index 5 raises (evaluates to none) instead of inserting
a line and never throwing as the claim states. -/
theorem rebuild_cycle_throws_on_zero_cycle_lines :
    rebuildCustomMapcycle [(gameinfoSectionKey, ["Foo=1"])] ["KF-A"] 5
      = none := by
  rfl

/-- Claim C1 amended: when the game-info section exists and contains at
least one cycle line, rebuilding at any index beyond the last existing
cycle position inserts exactly one new cycle line immediately after
the last one, leaves every existing line in place, and a repeated call
with an again out-of-range index also succeeds; with zero existing
cycle lines the call raises. -/
theorem rebuild_cycle_appends_after_last (t : Table) (names : List String)
    (index : Int) (gi : List String) (last : Nat)
    (hgi : alookup t gameinfoSectionKey = some gi)
    (hlast : (cycleIdxs gi).getLast? = some last)
    (hidx : ((cycleIdxs gi).length : Int) - 1 < index) :
    ∃ gi2, rebuildCustomMapcycle t names index
        = some (aset t gameinfoSectionKey gi2)
      ∧ gi2 = gi.take (last + 1) ++ mkCycleLine names :: gi.drop (last + 1)
      ∧ gi2.length = gi.length + 1
      ∧ ∀ i2 : Int, ((cycleIdxs gi2).length : Int) - 1 < i2 →
          ∃ t2, rebuildCustomMapcycle (aset t gameinfoSectionKey gi2) names i2
            = some t2 := by
  refine ⟨gi.take (last + 1) ++ mkCycleLine names :: gi.drop (last + 1),
    ?_, rfl, ?_, ?_⟩
  · simp only [rebuildCustomMapcycle, hgi, if_pos hidx, hlast]
    have hins : pyInsert gi ((last : Nat) + 1 : Int) (mkCycleLine names)
        = gi.take (last + 1) ++ mkCycleLine names :: gi.drop (last + 1) := by
      rw [pyInsert, if_neg (by omega)]
      have : (((last : Nat) + 1 : Int)).toNat = last + 1 := by omega
      rw [this]
    rw [show ((last : Nat) : Int) + 1 = (((last : Nat) + 1 : Nat) : Int) by
      omega] at hins ⊢
    rw [hins]
  · rw [List.length_append, List.length_cons, List.length_take,
      List.length_drop]
    omega
  · intro i2 hi2
    have hmem : mkCycleLine names
        ∈ gi.take (last + 1) ++ mkCycleLine names :: gi.drop (last + 1) := by
      rw [List.mem_append]
      exact Or.inr (List.mem_cons_self _ _)
    have hne : cycleIdxs (gi.take (last + 1)
        ++ mkCycleLine names :: gi.drop (last + 1)) ≠ [] := by
      intro hnil
      exact ((cycleIdxsGo_eq_nil_iff 0 _).mp hnil _ hmem)
        (by rw [isCycleLine_mkCycleLine])
    obtain ⟨a, ha⟩ := getLast_of_ne_nil hne
    exact ⟨aset (aset t gameinfoSectionKey
        (gi.take (last + 1) ++ mkCycleLine names :: gi.drop (last + 1)))
      gameinfoSectionKey
      (pyInsert
        (gi.take (last + 1) ++ mkCycleLine names :: gi.drop (last + 1))
        ((a : Int) + 1) (mkCycleLine names)),
      by simp only [rebuildCustomMapcycle, alookup_aset, if_pos rfl,
        eq_self_iff_true, if_true, if_pos hi2, ha]⟩

/-- Claim C1 witness: the amended theorem on a section holding one cycle
line and one other line, at index 5. -/
theorem rebuild_cycle_c1_witness :
    ∃ gi2, rebuildCustomMapcycle
        [(gameinfoSectionKey, ["GameMapCycles=(Maps=())", "x"])] ["KF-A"] 5
        = some (aset [(gameinfoSectionKey, ["GameMapCycles=(Maps=())", "x"])]
            gameinfoSectionKey gi2)
      ∧ gi2 = ["GameMapCycles=(Maps=())", "x"].take (0 + 1)
          ++ mkCycleLine ["KF-A"]
            :: ["GameMapCycles=(Maps=())", "x"].drop (0 + 1)
      ∧ gi2.length = ["GameMapCycles=(Maps=())", "x"].length + 1
      ∧ ∀ i2 : Int, ((cycleIdxs gi2).length : Int) - 1 < i2 →
          ∃ t2, rebuildCustomMapcycle
            (aset [(gameinfoSectionKey, ["GameMapCycles=(Maps=())", "x"])]
              gameinfoSectionKey gi2) ["KF-A"] i2 = some t2 :=
  rebuild_cycle_appends_after_last
    [(gameinfoSectionKey, ["GameMapCycles=(Maps=())", "x"])] ["KF-A"] 5
    ["GameMapCycles=(Maps=())", "x"] 0 rfl (by decide) (by decide)

theorem step2_lookup_outside (ns : List String) (a : Table) (q : String)
    (h : ¬q ∈ ns.map summaryHeader) :
    alookup (ns.foldl
      (fun acc n => aset acc (summaryHeader n) (summaryBody n)) a) q
      = alookup a q := by
  induction ns generalizing a with
  | nil => rfl
  | cons n ns ih =>
    rw [List.map_cons, List.mem_cons, not_or] at h
    show alookup (ns.foldl _ (aset a (summaryHeader n) (summaryBody n))) q = _
    rw [ih _ h.2, alookup_aset, if_neg h.1]

theorem step2_lookup_cong (ns : List String) (a b : Table)
    (h : ∀ q, ¬q ∈ ns.map summaryHeader → alookup a q = alookup b q) :
    ∀ q, alookup (ns.foldl
        (fun acc n => aset acc (summaryHeader n) (summaryBody n)) a) q
      = alookup (ns.foldl
        (fun acc n => aset acc (summaryHeader n) (summaryBody n)) b) q := by
  induction ns generalizing a b with
  | nil =>
    intro q
    exact h q (by simp)
  | cons n ns ih =>
    intro q
    show alookup (ns.foldl _ (aset a (summaryHeader n) (summaryBody n))) q = _
    apply ih
    intro q2 hq2
    rw [alookup_aset, alookup_aset]
    by_cases he : q2 = summaryHeader n
    · rw [if_pos he, if_pos he]
    · rw [if_neg he, if_neg he]
      refine h q2 (fun hmem => ?_)
      rw [List.map_cons, List.mem_cons] at hmem
      exact hmem.elim he hq2

theorem step2_nodup (ns : List String) (a : Table)
    (h : (akeys a).Nodup) :
    (akeys (ns.foldl
      (fun acc n => aset acc (summaryHeader n) (summaryBody n)) a)).Nodup := by
  induction ns generalizing a with
  | nil => exact h
  | cons n ns ih => exact ih _ (akeys_aset_nodup _ _ _ h)

theorem filter_aset_mem (N : List String) (a : Table) (k : String)
    (v : List String) (hk : k ∈ N) :
    (aset a k v).filter (fun kv => ¬kv.1 ∈ N)
      = a.filter (fun kv => ¬kv.1 ∈ N) := by
  induction a with
  | nil =>
    show List.filter _ [(k, v)] = _
    rw [List.filter_cons_of_neg (by simpa using hk)]
  | cons p a ih =>
    by_cases hp : p.1 = k
    · rw [aset_cons_pos hp, List.filter_cons_of_neg (by simpa using hk),
        List.filter_cons_of_neg (by simp [hp, hk])]
    · rw [aset_cons_neg hp]
      by_cases hpN : p.1 ∈ N
      · rw [List.filter_cons_of_neg (by simpa using hpN),
          List.filter_cons_of_neg (by simpa using hpN), ih]
      · rw [List.filter_cons_of_pos (by simpa using hpN),
          List.filter_cons_of_pos (by simpa using hpN), ih]

theorem foldl_aset_filter (N : List String) (ns : List String) (a : Table)
    (h : ∀ n ∈ ns, summaryHeader n ∈ N) :
    ((ns.foldl (fun acc n => aset acc (summaryHeader n) (summaryBody n))
      a).filter (fun kv => ¬kv.1 ∈ N))
      = a.filter (fun kv => ¬kv.1 ∈ N) := by
  induction ns generalizing a with
  | nil => rfl
  | cons n ns ih =>
    show ((ns.foldl _ (aset a (summaryHeader n) (summaryBody n))).filter _) = _
    rw [ih _ (fun x hx => h x (List.mem_cons_of_mem n hx)),
      filter_aset_mem N a _ _ (h n (List.mem_cons_self n ns))]

theorem filter_swap {α : Type} (p q : α → Bool) (l : List α) :
    (l.filter p).filter q = (l.filter q).filter p := by
  induction l with
  | nil => rfl
  | cons x l ih =>
    by_cases hp : p x <;> by_cases hq : q x <;>
      simp [List.filter_cons, hp, hq, ih]

theorem filter_cond_idem (p : String × List String → Bool) (q : String)
    (o : Option (List String)) :
    (match (match o with
      | some v => if p (q, v) then some v else none
      | none => none : Option (List String)) with
      | some v => if p (q, v) then some v else none
      | none => none)
    = match o with
      | some v => if p (q, v) then some v else none
      | none => none := by
  cases o with
  | none => rfl
  | some v =>
    cases hp : p (q, v) with
    | false => simp [hp]
    | true => simp [hp]

theorem akeys_filter_nodup (p : String × List String → Bool) (t : Table)
    (h : (akeys t).Nodup) : (akeys (t.filter p)).Nodup :=
  ((List.filter_sublist t).map Prod.fst).nodup h

/-!
Claim C9.  Rebuilding the map summaries twice with the same catalog
names yields the same table as rebuilding once: the same mapping from
headers to bodies, and the very same sequence of sections once the
regenerated summary entries are set aside (their positions may differ,
which the claim allows).
-/

/-- Claim C9: for a table with unique headers, a second rebuild with the
same names changes nothing: every header looks up to the same body,
and the subsequence of sections that are not regenerated summaries is
identical. -/
theorem rebuild_summaries_idempotent (t : Table) (names : List String)
    (hnd : (akeys t).Nodup) :
    (∀ q, alookup (rebuildMapSummaries (rebuildMapSummaries t names) names) q
        = alookup (rebuildMapSummaries t names) q)
    ∧ (rebuildMapSummaries (rebuildMapSummaries t names) names).filter
        (fun kv => ¬kv.1 ∈ names.map summaryHeader)
      = (rebuildMapSummaries t names).filter
        (fun kv => ¬kv.1 ∈ names.map summaryHeader) := by
  have hnd1 : (akeys (t.filter
      (fun kv => ¬(reMatchSummary kv.1 ∧ kv.2.length = 1)))).Nodup :=
    akeys_filter_nodup _ t hnd
  have hndg : (akeys (names.foldl
      (fun acc n => aset acc (summaryHeader n) (summaryBody n))
      (t.filter
        (fun kv => ¬(reMatchSummary kv.1 ∧ kv.2.length = 1))))).Nodup :=
    step2_nodup _ _ hnd1
  constructor
  · show ∀ q, alookup (names.foldl
        (fun acc n => aset acc (summaryHeader n) (summaryBody n))
        ((names.foldl (fun acc n => aset acc (summaryHeader n) (summaryBody n))
          (t.filter (fun kv => ¬(reMatchSummary kv.1 ∧ kv.2.length = 1)))).filter
          (fun kv => ¬(reMatchSummary kv.1 ∧ kv.2.length = 1)))) q
      = alookup (names.foldl
        (fun acc n => aset acc (summaryHeader n) (summaryBody n))
        (t.filter (fun kv => ¬(reMatchSummary kv.1 ∧ kv.2.length = 1)))) q
    apply step2_lookup_cong
    intro q hq
    rw [alookup_filter _ _ _ hndg, step2_lookup_outside _ _ _ hq,
      alookup_filter _ _ _ hnd]
    exact filter_cond_idem
      (fun kv => ¬(reMatchSummary kv.1 ∧ kv.2.length = 1)) q (alookup t q)
  · show (names.foldl
        (fun acc n => aset acc (summaryHeader n) (summaryBody n))
        ((names.foldl (fun acc n => aset acc (summaryHeader n) (summaryBody n))
          (t.filter (fun kv => ¬(reMatchSummary kv.1 ∧ kv.2.length = 1)))).filter
          (fun kv => ¬(reMatchSummary kv.1 ∧ kv.2.length = 1)))).filter
        (fun kv => ¬kv.1 ∈ names.map summaryHeader)
      = (names.foldl
        (fun acc n => aset acc (summaryHeader n) (summaryBody n))
        (t.filter (fun kv => ¬(reMatchSummary kv.1 ∧ kv.2.length = 1)))).filter
        (fun kv => ¬kv.1 ∈ names.map summaryHeader)
    rw [foldl_aset_filter _ names _ (fun n hn => List.mem_map_of_mem _ hn),
      filter_swap,
      foldl_aset_filter _ names _ (fun n hn => List.mem_map_of_mem _ hn),
      filter_swap, filter_idem]

/-- Claim C9 witness: the theorem at the concrete table from the design
scenario, a vanilla eight-line summary and a derived one-line summary,
with one catalog name. -/
theorem rebuild_summaries_c9_witness :
    (∀ q, alookup (rebuildMapSummaries (rebuildMapSummaries
        [("[A KFMapSummary]", ["1", "2", "3", "4", "5", "6", "7", "8"]),
         ("[B KFMapSummary]", ["MapName=B"])] ["C"]) ["C"]) q
      = alookup (rebuildMapSummaries
        [("[A KFMapSummary]", ["1", "2", "3", "4", "5", "6", "7", "8"]),
         ("[B KFMapSummary]", ["MapName=B"])] ["C"]) q)
    ∧ (rebuildMapSummaries (rebuildMapSummaries
        [("[A KFMapSummary]", ["1", "2", "3", "4", "5", "6", "7", "8"]),
         ("[B KFMapSummary]", ["MapName=B"])] ["C"]) ["C"]).filter
        (fun kv => ¬kv.1 ∈ ["C"].map summaryHeader)
      = (rebuildMapSummaries
        [("[A KFMapSummary]", ["1", "2", "3", "4", "5", "6", "7", "8"]),
         ("[B KFMapSummary]", ["MapName=B"])] ["C"]).filter
        (fun kv => ¬kv.1 ∈ ["C"].map summaryHeader) :=
  rebuild_summaries_idempotent
    [("[A KFMapSummary]", ["1", "2", "3", "4", "5", "6", "7", "8"]),
     ("[B KFMapSummary]", ["MapName=B"])] ["C"] (by decide)

theorem strMkData (s : String) : String.mk s.data = s := by
  cases s
  rfl

theorem str_data_append (a b : String) : (a ++ b).data = a.data ++ b.data := by
  cases a
  cases b
  rfl

theorem str_ext {a b : String} (h : a.data = b.data) : a = b := by
  cases a
  cases b
  exact congrArg String.mk h

theorem str_ne_empty_data {s : String} (h : s ≠ "") : s.data ≠ [] := by
  intro hd
  exact h (by rw [← strMkData s, hd])

theorem joinNlStr_cons (s : String) (rest : List String) (h : rest ≠ []) :
    joinNlStr (s :: rest) = s ++ "\n" ++ joinNlStr rest := by
  cases rest with
  | nil => exact absurd rfl h
  | cons r rs => rfl

theorem joinNlStr_append (A B : List String) (hA : A ≠ []) (hB : B ≠ []) :
    joinNlStr (A ++ B) = joinNlStr A ++ "\n" ++ joinNlStr B := by
  induction A with
  | nil => exact absurd rfl hA
  | cons s A ih =>
    cases A with
    | nil =>
      show joinNlStr (s :: B) = joinNlStr [s] ++ "\n" ++ joinNlStr B
      rw [joinNlStr_cons s B hB]
      rfl
    | cons a2 A2 =>
      rw [List.cons_append, joinNlStr_cons s ((a2 :: A2) ++ B) (by simp),
        joinNlStr_cons s (a2 :: A2) (by simp), ih (by simp)]
      apply str_ext
      simp [str_data_append]

theorem str_append_empty (a : String) : a ++ "" = a := by
  apply str_ext
  simp [str_data_append]

theorem joinNlStr_append_empty (A : List String) (hA : A ≠ []) :
    joinNlStr (A ++ [""]) = joinNlStr A ++ "\n" := by
  rw [joinNlStr_append A [""] hA (by simp)]
  show joinNlStr A ++ "\n" ++ "" = _
  rw [str_append_empty]

theorem joinNlStr_head_data (x : String) (xs : List String) :
    ∃ cs, (joinNlStr (x :: xs)).data = x.data ++ cs := by
  cases xs with
  | nil => exact ⟨[], by simp [joinNlStr]⟩
  | cons y ys =>
    refine ⟨'\n' :: (joinNlStr (y :: ys)).data, ?_⟩
    rw [joinNlStr_cons x (y :: ys) (by simp), str_data_append, str_data_append]
    simp

theorem blocksGo_newline (y acc : List Char) (p : Nat) :
    blocksGo ('\n' :: y) acc p = blocksGo y acc (p + 1) := by
  simp [blocksGo]

theorem blocksGo_nonl (l : List Char) : ∀ (s acc : List Char), '\n' ∉ l →
    blocksGo (l ++ s) acc 0 = blocksGo s (l.reverse ++ acc) 0 := by
  induction l with
  | nil =>
    intro s acc _
    simp
  | cons c l ih =>
    intro s acc h
    have hc : ¬c = '\n' := fun he => h (he ▸ List.mem_cons_self c l)
    show blocksGo (c :: (l ++ s)) acc 0 = _
    rw [show blocksGo (c :: (l ++ s)) acc 0 = blocksGo (l ++ s) (c :: acc) 0
        from by simp [blocksGo, hc],
      ih s (c :: acc) (fun hm => h (List.mem_cons_of_mem c hm))]
    simp

theorem blocksGo_pending_one (c : Char) (y acc : List Char) (hc : ¬c = '\n') :
    blocksGo (c :: y) acc 1 = blocksGo y (c :: '\n' :: acc) 0 := by
  simp [blocksGo, hc]

theorem blocksGo_pending_zero (c : Char) (y acc : List Char) (hc : ¬c = '\n') :
    blocksGo (c :: y) ('\n' :: acc) 0 = blocksGo y (c :: '\n' :: acc) 0 := by
  simp [blocksGo, hc]

theorem blocksGo_sep_restart (c : Char) (y acc : List Char) (hc : ¬c = '\n') :
    blocksGo (c :: y) acc 2 = acc.reverse :: blocksGo (c :: y) [] 0 := by
  simp [blocksGo, hc]

theorem blocksGo_join (ls : List String) : ∀ (s acc : List Char),
    (∀ l ∈ ls, '\n' ∉ l.data) → (∀ l ∈ ls, l ≠ "") →
    blocksGo ((joinNlStr ls).data ++ s) acc 0
      = blocksGo s ((joinNlStr ls).data.reverse ++ acc) 0 := by
  induction ls with
  | nil =>
    intro s acc _ _
    show blocksGo ([] ++ s) acc 0 = blocksGo s (List.reverse [] ++ acc) 0
    simp
  | cons l ls ih =>
    intro s acc hnl hne
    cases ls with
    | nil =>
      show blocksGo (l.data ++ s) acc 0 = blocksGo s (l.data.reverse ++ acc) 0
      exact blocksGo_nonl l.data s acc (hnl l (List.mem_cons_self l []))
    | cons l2 ls2 =>
      have hJ : (joinNlStr (l :: l2 :: ls2)).data
          = l.data ++ '\n' :: (joinNlStr (l2 :: ls2)).data := by
        rw [joinNlStr_cons l (l2 :: ls2) (by simp), str_data_append,
          str_data_append]
        simp
      obtain ⟨cs, hcs⟩ := joinNlStr_head_data l2 ls2
      obtain ⟨c, y, hcy⟩ : ∃ c y, l2.data = c :: y := by
        cases hl2 : l2.data with
        | nil =>
          exact absurd hl2
            (str_ne_empty_data (hne l2 (List.mem_cons_of_mem l
              (List.mem_cons_self l2 ls2))))
        | cons c y => exact ⟨c, y, rfl⟩
      have hc : ¬c = '\n' := by
        intro he
        exact hnl l2 (List.mem_cons_of_mem l (List.mem_cons_self l2 ls2))
          (by rw [hcy, he]; exact List.mem_cons_self _ _)
      have hJ2 : (joinNlStr (l2 :: ls2)).data = c :: (y ++ cs) := by
        rw [hcs, hcy]
        rfl
      rw [hJ]
      rw [show (l.data ++ '\n' :: (joinNlStr (l2 :: ls2)).data) ++ s
          = l.data ++ ('\n' :: ((joinNlStr (l2 :: ls2)).data ++ s)) from by
        simp,
        blocksGo_nonl l.data _ acc (hnl l (List.mem_cons_self l _)),
        blocksGo_newline]
      rw [show (0 : Nat) + 1 = 1 from rfl]
      rw [show (joinNlStr (l2 :: ls2)).data ++ s = (c :: (y ++ cs)) ++ s from by
        rw [hJ2]]
      rw [show blocksGo ((c :: (y ++ cs)) ++ s) (l.data.reverse ++ acc) 1
          = blocksGo ((c :: (y ++ cs)) ++ s) ('\n' :: (l.data.reverse ++ acc)) 0
        from by
          rw [List.cons_append]
          rw [blocksGo_pending_one c _ _ hc, blocksGo_pending_zero c _ _ hc]]
      rw [show (c :: (y ++ cs)) ++ s = (joinNlStr (l2 :: ls2)).data ++ s from by
        rw [hJ2]]
      rw [ih s ('\n' :: (l.data.reverse ++ acc))
        (fun x hx => hnl x (List.mem_cons_of_mem l hx))
        (fun x hx => hne x (List.mem_cons_of_mem l hx))]
      simp [List.reverse_append, List.reverse_cons, List.append_assoc]

theorem splitChar_no_sep (l : List Char) (h : '\n' ∉ l) :
    splitChar '\n' l = [l] := by
  induction l with
  | nil => rfl
  | cons c cs ih =>
    have hc : ¬c = '\n' := fun he => h (he ▸ List.mem_cons_self c cs)
    have h2 := ih (fun hm => h (List.mem_cons_of_mem c hm))
    simp [splitChar, h2, hc]

theorem splitChar_append_sep (a : List Char) (rest : List Char)
    (h : '\n' ∉ a) :
    splitChar '\n' (a ++ '\n' :: rest) = a :: splitChar '\n' rest := by
  induction a with
  | nil =>
    show splitChar '\n' ('\n' :: rest) = [] :: _
    simp [splitChar]
  | cons c cs ih =>
    have hc : ¬c = '\n' := fun he => h (he ▸ List.mem_cons_self c cs)
    have h2 := ih (fun hm => h (List.mem_cons_of_mem c hm))
    show splitChar '\n' (c :: (cs ++ '\n' :: rest)) = _
    simp [splitChar, h2, hc]

theorem splitChar_joinNl (ls : List String) (hnl : ∀ l ∈ ls, '\n' ∉ l.data)
    (hne : ls ≠ []) :
    splitChar '\n' ((joinNlStr ls).data) = ls.map (fun l => l.data) := by
  induction ls with
  | nil => exact absurd rfl hne
  | cons l ls ih =>
    cases ls with
    | nil =>
      show splitChar '\n' l.data = [l.data]
      exact splitChar_no_sep l.data (hnl l (List.mem_cons_self l []))
    | cons l2 ls2 =>
      have hJ : (joinNlStr (l :: l2 :: ls2)).data
          = l.data ++ '\n' :: (joinNlStr (l2 :: ls2)).data := by
        rw [joinNlStr_cons l (l2 :: ls2) (by simp), str_data_append,
          str_data_append]
        simp
      rw [hJ, splitChar_append_sep _ _ (hnl l (List.mem_cons_self l _)),
        ih (fun x hx => hnl x (List.mem_cons_of_mem l hx)) (by simp)]
      simp

theorem parseSection_joinNl (h : String) (b : List String)
    (hnl : ∀ l ∈ h :: b, '\n' ∉ l.data) :
    parseSection ((joinNlStr (h :: b)).data) = (h, b) := by
  rw [parseSection, splitChar_joinNl (h :: b) hnl (by simp)]
  show (String.mk h.data, (b.map (fun l => l.data)).map String.mk) = (h, b)
  rw [strMkData, List.map_map,
    show (String.mk ∘ fun l : String => l.data) = id from funext strMkData,
    List.map_id]

/-- The two lines every section contributes make the flattened line
list of a nonempty table nonempty. -/
theorem flatten_sections_ne_nil (t : Table) (ht : t ≠ []) :
    List.flatten (t.map (fun kv => kv.1 :: kv.2 ++ [""])) ≠ [] := by
  cases t with
  | nil => exact absurd rfl ht
  | cons e t' => simp

theorem write_head (t : Table) (ht : t ≠ [])
    (hok : ∀ e ∈ t, lineOk e.1 ∧ ∀ l ∈ e.2, lineOk l) :
    ∃ c y, (writeTableToIni t).data = c :: y ∧ ¬c = '\n' := by
  cases t with
  | nil => exact absurd rfl ht
  | cons e t' =>
    have hw : writeTableToIni (e :: t')
        = joinNlStr (e.1 :: (e.2 ++ [""]
          ++ List.flatten (t'.map (fun kv => kv.1 :: kv.2 ++ [""])))) := by
      rw [writeTableToIni]
      simp
    obtain ⟨cs, hcs⟩ := joinNlStr_head_data e.1
      (e.2 ++ [""] ++ List.flatten (t'.map (fun kv => kv.1 :: kv.2 ++ [""])))
    have hok1 := (hok e (List.mem_cons_self e t')).1
    cases hd : e.1.data with
    | nil => exact absurd hd (str_ne_empty_data hok1.1)
    | cons c y =>
      refine ⟨c, y ++ cs, ?_, ?_⟩
      · rw [hw, hcs, hd]
        simp
      · intro he
        exact hok1.2 (by rw [hd, he]; exact List.mem_cons_self _ _)

/-- Splitting the written text of a table with at least two sections:
the first section becomes one block and the rest recurses. -/
theorem splitBlocks_write_cons (kv : String × List String) (t : Table)
    (ht : t ≠ [])
    (hok : ∀ e ∈ kv :: t, lineOk e.1 ∧ ∀ l ∈ e.2, lineOk l) :
    splitBlocks (writeTableToIni (kv :: t))
      = (joinNlStr (kv.1 :: kv.2)).data :: splitBlocks (writeTableToIni t) := by
  have hw : writeTableToIni (kv :: t)
      = (joinNlStr (kv.1 :: kv.2) ++ "\n") ++ "\n" ++ writeTableToIni t := by
    rw [writeTableToIni, writeTableToIni]
    rw [show (kv :: t).map (fun e => e.1 :: e.2 ++ [""])
        = (kv.1 :: kv.2 ++ [""]) :: t.map (fun e => e.1 :: e.2 ++ [""])
      from rfl, List.flatten_cons,
      joinNlStr_append _ _ (by simp) (flatten_sections_ne_nil t ht),
      show kv.1 :: kv.2 ++ [""] = (kv.1 :: kv.2) ++ [""] from by simp,
      joinNlStr_append_empty _ (by simp)]
  have hdata : (writeTableToIni (kv :: t)).data
      = (joinNlStr (kv.1 :: kv.2)).data
        ++ ('\n' :: '\n' :: (writeTableToIni t).data) := by
    rw [hw, str_data_append, str_data_append, str_data_append]
    simp
  have hoknl : ∀ l ∈ kv.1 :: kv.2, '\n' ∉ l.data := by
    intro l hl
    rcases List.mem_cons.mp hl with he | hb
    · exact he ▸ (hok kv (List.mem_cons_self kv t)).1.2
    · exact ((hok kv (List.mem_cons_self kv t)).2 l hb).2
  have hokne : ∀ l ∈ kv.1 :: kv.2, l ≠ "" := by
    intro l hl
    rcases List.mem_cons.mp hl with he | hb
    · exact he ▸ (hok kv (List.mem_cons_self kv t)).1.1
    · exact ((hok kv (List.mem_cons_self kv t)).2 l hb).1
  obtain ⟨c, y, hcy, hc⟩ := write_head t ht
    (fun e he => hok e (List.mem_cons_of_mem kv he))
  rw [splitBlocks, hdata, blocksGo_join _ _ _ hoknl hokne,
    blocksGo_newline, blocksGo_newline]
  rw [show (0 : Nat) + 1 + 1 = 2 from rfl, hcy,
    blocksGo_sep_restart c y _ hc, ← hcy]
  rw [splitBlocks]
  simp

/-- Splitting the written text of a one-section table: one block, the
section followed by a trailing newline. -/
theorem splitBlocks_write_single (kv : String × List String)
    (hok : lineOk kv.1 ∧ ∀ l ∈ kv.2, lineOk l) :
    splitBlocks (writeTableToIni [kv])
      = [(joinNlStr (kv.1 :: kv.2)).data ++ ['\n']] := by
  have hw : writeTableToIni [kv] = joinNlStr (kv.1 :: kv.2) ++ "\n" := by
    rw [writeTableToIni]
    rw [show [kv].map (fun e => e.1 :: e.2 ++ [""])
        = [kv.1 :: kv.2 ++ [""]] from rfl]
    rw [show List.flatten [kv.1 :: kv.2 ++ [""]] = kv.1 :: kv.2 ++ [""] from by
      simp,
      show kv.1 :: kv.2 ++ [""] = (kv.1 :: kv.2) ++ [""] from by simp,
      joinNlStr_append_empty _ (by simp)]
  have hoknl : ∀ l ∈ kv.1 :: kv.2, '\n' ∉ l.data := by
    intro l hl
    rcases List.mem_cons.mp hl with he | hb
    · exact he ▸ hok.1.2
    · exact (hok.2 l hb).2
  have hokne : ∀ l ∈ kv.1 :: kv.2, l ≠ "" := by
    intro l hl
    rcases List.mem_cons.mp hl with he | hb
    · exact he ▸ hok.1.1
    · exact (hok.2 l hb).1
  rw [splitBlocks, hw, str_data_append,
    show ("\n" : String).data = ['\n'] from rfl,
    blocksGo_join _ _ _ hoknl hokne, blocksGo_newline]
  show blocksGo [] ((joinNlStr (kv.1 :: kv.2)).data.reverse ++ []) 1 = _
  rw [show blocksGo [] ((joinNlStr (kv.1 :: kv.2)).data.reverse ++ []) 1
      = [('\n' :: ((joinNlStr (kv.1 :: kv.2)).data.reverse ++ [])).reverse]
    from by simp [blocksGo]]
  simp

/-- Parsing every block of the written text recovers the table, with
one empty line appended to the last section's body. -/
theorem mapped_write (t : Table) (kv : String × List String)
    (hok : ∀ e ∈ t ++ [kv], lineOk e.1 ∧ ∀ l ∈ e.2, lineOk l) :
    (splitBlocks (writeTableToIni (t ++ [kv]))).map parseSection
      = t ++ [(kv.1, kv.2 ++ [""])] := by
  induction t with
  | nil =>
    rw [List.nil_append,
      splitBlocks_write_single kv (hok kv (List.mem_cons_self kv [])),
      List.map_cons, List.map_nil]
    have hnl : ∀ l ∈ kv.1 :: (kv.2 ++ [""]), '\n' ∉ l.data := by
      intro l hl
      rcases List.mem_cons.mp hl with he | hb
      · exact he ▸ (hok kv (List.mem_cons_self kv [])).1.2
      · rcases List.mem_append.mp hb with h2 | h3
        · exact ((hok kv (List.mem_cons_self kv [])).2 l h2).2
        · rw [List.mem_singleton.mp h3]
          simp
    have hsec : (joinNlStr (kv.1 :: kv.2)).data ++ ['\n']
        = (joinNlStr (kv.1 :: (kv.2 ++ [""]))).data := by
      rw [show kv.1 :: (kv.2 ++ [""]) = (kv.1 :: kv.2) ++ [""] from by simp,
        joinNlStr_append_empty _ (by simp), str_data_append]
    rw [hsec, parseSection_joinNl kv.1 (kv.2 ++ [""]) hnl]
    simp
  | cons e t ih =>
    rw [List.cons_append,
      splitBlocks_write_cons e (t ++ [kv]) (by simp)
        (by rw [← List.cons_append]; exact hok),
      List.map_cons,
      ih (fun x hx => hok x (List.mem_cons_of_mem e hx))]
    have hnl : ∀ l ∈ e.1 :: e.2, '\n' ∉ l.data := by
      intro l hl
      have hoke := hok e (List.mem_cons_self e (t ++ [kv]))
      rcases List.mem_cons.mp hl with he | hb
      · exact he ▸ hoke.1.2
      · exact (hoke.2 l hb).2
    rw [parseSection_joinNl e.1 e.2 hnl]
    simp

theorem aset_append_fresh (acc : Table) (k : String) (v : List String)
    (h : ¬k ∈ akeys acc) : aset acc k v = acc ++ [(k, v)] := by
  induction acc with
  | nil => rfl
  | cons p acc ih =>
    rw [akeys_cons, List.mem_cons, not_or] at h
    rw [aset_cons_neg (fun he => h.1 he.symm), List.cons_append, ih h.2]

theorem akeys_append (a b : Table) : akeys (a ++ b) = akeys a ++ akeys b := by
  simp [akeys]

theorem foldl_aset_fresh (l : List (String × List String)) :
    ∀ acc : Table, (∀ p ∈ l, ¬p.1 ∈ akeys acc) → (akeys l).Nodup →
    l.foldl (fun t s => aset t s.1 s.2) acc = acc ++ l := by
  induction l with
  | nil =>
    intro acc _ _
    simp
  | cons p l ih =>
    intro acc hfresh hnd
    rw [akeys_cons, List.nodup_cons] at hnd
    show l.foldl (fun t s => aset t s.1 s.2) (aset acc p.1 p.2) = _
    rw [aset_append_fresh acc p.1 p.2 (hfresh p (List.mem_cons_self p l)),
      ih (acc ++ [p]) ?_ hnd.2]
    · simp
    · intro q hq
      rw [akeys_append, List.mem_append]
      rintro (h1 | h2)
      · exact hfresh q (List.mem_cons_of_mem p hq) h1
      · rw [show akeys [p] = [p.1] from rfl, List.mem_singleton] at h2
        exact hnd.1 (h2 ▸ List.mem_map_of_mem Prod.fst hq)

/-!
Claim C2.  The round trip is not the identity: the written text ends
with one newline, so the reader hands the last section an extra empty
body line.  On well-formed tables that is the only discrepancy.
-/

/-- Claim C2 counterexample: a well-formed one-section table does not round
trip; reading back the written text appends an empty line to the last
section's body. -/
theorem read_write_not_identity :
    wfTable [("[A]", ["x"])]
    ∧ readIniContent (writeTableToIni [("[A]", ["x"])]) ≠ [("[A]", ["x"])]
    ∧ readIniContent (writeTableToIni [("[A]", ["x"])])
        = [("[A]", ["x", ""])] := by
  refine ⟨by decide, by decide, by decide⟩

/-- Claim C2 amended: for every well-formed table, reading back the written
text yields the same headers in the same order with the same bodies,
except that the last section's body gains one trailing empty line. -/
theorem read_write_appends_trailing_empty (t : Table)
    (kv : String × List String) (hwf : wfTable (t ++ [kv])) :
    readIniContent (writeTableToIni (t ++ [kv]))
      = t ++ [(kv.1, kv.2 ++ [""])] := by
  obtain ⟨hnd, hok⟩ := hwf
  rw [readIniContent, mapped_write t kv hok,
    foldl_aset_fresh _ [] (by simp [akeys]) ?_]
  · simp
  · have : akeys (t ++ [(kv.1, kv.2 ++ [""])]) = akeys (t ++ [kv]) := by
      rw [akeys_append, akeys_append]
      rfl
    rw [this]
    exact hnd

/-- Claim C2 witness: the amended theorem on a concrete two-section table. -/
theorem read_write_c2_witness :
    readIniContent (writeTableToIni
      ([("[A]", ["x", "y"])] ++ [("[B]", ["z"])]))
      = [("[A]", ["x", "y"])] ++ [("[B]", ["z", ""])] :=
  read_write_appends_trailing_empty [("[A]", ["x", "y"])] ("[B]", ["z"])
    (by decide)

end SteamCMD
